import Mathlib

/-!
Verification development for the libxenbe backend framework.

The repository provides the class declarations (BackendBase, XenEvtchn)
and a XenStore unit test; the corresponding implementation files are not
part of the source tree here, so the operational behaviour of XenStore,
XenEvtchn and the BackendBase discovery loop is modelled from the design
specification (spec.md) and checked against it.  Constants and member
signatures that do appear in the headers (the 500 ms frontend poll
interval, the getDomId/getDeviceName getters) are taken from the source.
-/

/-! ### Decimal codec

XenStore stores every value as a string; writeInt/writeUint serialize a
number to its decimal representation and readInt/readUint parse it back.
The codec below is the decimal serialization used by the store model. -/

/-- Character for a single decimal digit d < 10 (ASCII 48 + d). -/
def digitChar (d : Nat) : Char := Char.ofNat (48 + d)

/-- Numeric value of a decimal digit character. -/
def charVal (c : Char) : Nat := c.toNat - 48

/-- Whether a character is a decimal digit. -/
def isDigitChar (c : Char) : Bool := decide (48 ≤ c.toNat) && decide (c.toNat ≤ 57)

/-- Decimal digit characters of a natural number, most significant first. -/
def natChars (n : Nat) : List Char :=
  if n = 0 then ['0'] else ((Nat.digits 10 n).map digitChar).reverse

/-- Decimal string of a natural number. -/
def natToStr (n : Nat) : String := String.mk (natChars n)

/-- Decimal digit characters of an integer, with a leading minus sign when
negative. -/
def intChars (i : Int) : List Char :=
  if i < 0 then '-' :: natChars i.natAbs else natChars i.natAbs

/-- Decimal string of an integer. -/
def intToStr (i : Int) : String := String.mk (intChars i)

/-- Parse a non-empty all-digit character list as a natural number. -/
def parseNatChars (l : List Char) : Option Nat :=
  if l = [] then none
  else if l.all isDigitChar then some (l.foldl (fun a c => 10 * a + charVal c) 0)
  else none

/-- Parse a character list as an integer (optional leading minus sign). -/
def parseIntChars (l : List Char) : Option Int :=
  match l with
  | [] => none
  | c :: rest =>
    if c = '-' then (parseNatChars rest).map (fun n => -(n : Int))
    else (parseNatChars (c :: rest)).map (fun n => (n : Int))

/-- Parse a string as a natural number. -/
def parseNatStr (s : String) : Option Nat := parseNatChars s.data

/-- Parse a string as an integer. -/
def parseIntStr (s : String) : Option Int := parseIntChars s.data

lemma digitChar_facts : ∀ d < 10,
    charVal (digitChar d) = d ∧ isDigitChar (digitChar d) = true ∧ digitChar d ≠ '-' := by
  decide

lemma foldl_digitChars (L : List Nat) (hL : ∀ d ∈ L, d < 10) (a : Nat) :
    ((L.map digitChar).reverse).foldl (fun x c => 10 * x + charVal c) a
      = a * 10 ^ L.length + Nat.ofDigits 10 L := by
  induction L generalizing a with
  | nil => simp [Nat.ofDigits]
  | cons d ds ih =>
    have hd : d < 10 := hL d (List.mem_cons_self _ _)
    have hds : ∀ x ∈ ds, x < 10 := fun x hx => hL x (List.mem_cons_of_mem _ hx)
    simp only [List.map_cons, List.reverse_cons, List.foldl_append, List.foldl_cons,
      List.foldl_nil]
    rw [ih hds, (digitChar_facts d hd).1, Nat.ofDigits_cons]
    simp only [List.length_cons, pow_succ]
    ring

lemma natChars_ne_nil (n : Nat) : natChars n ≠ [] := by
  unfold natChars
  by_cases h : n = 0
  · simp [h]
  · simp only [h, if_false]
    have hne : Nat.digits 10 n ≠ [] := Nat.digits_ne_nil_iff_ne_zero.mpr h
    simp_all

lemma natChars_mem_digit {n : Nat} {c : Char} (hc : c ∈ natChars n) :
    isDigitChar c = true ∧ c ≠ '-' := by
  unfold natChars at hc
  by_cases h : n = 0
  · simp [h] at hc
    subst hc
    exact ⟨by decide, by decide⟩
  · simp only [h, if_false, List.mem_reverse, List.mem_map] at hc
    obtain ⟨d, hd, rfl⟩ := hc
    have hlt : d < 10 := Nat.digits_lt_base (by norm_num) hd
    exact ⟨(digitChar_facts d hlt).2.1, (digitChar_facts d hlt).2.2⟩

lemma parseNatChars_natChars (n : Nat) : parseNatChars (natChars n) = some n := by
  by_cases h : n = 0
  · subst h; decide
  · have hne : natChars n ≠ [] := natChars_ne_nil n
    have hall : (natChars n).all isDigitChar = true := by
      rw [List.all_eq_true]
      exact fun c hc => (natChars_mem_digit hc).1
    unfold parseNatChars
    rw [if_neg hne, if_pos hall]
    unfold natChars
    rw [if_neg h]
    rw [foldl_digitChars _ (fun d hd => Nat.digits_lt_base (by norm_num) hd)]
    rw [Nat.ofDigits_digits]
    simp

lemma parseIntChars_intChars (i : Int) : parseIntChars (intChars i) = some i := by
  by_cases h : i < 0
  · unfold intChars
    rw [if_pos h]
    have hstep : parseIntChars ('-' :: natChars i.natAbs)
        = (parseNatChars (natChars i.natAbs)).map (fun n => -(n : Int)) := by
      simp [parseIntChars]
    rw [hstep, parseNatChars_natChars]
    exact congrArg some (show -((i.natAbs : Nat) : Int) = i by omega)
  · unfold intChars
    rw [if_neg h]
    cases hE : natChars i.natAbs with
    | nil => exact absurd hE (natChars_ne_nil _)
    | cons c rest =>
      have hcmem : c ∈ natChars i.natAbs := by rw [hE]; exact List.mem_cons_self _ _
      have hcne : ¬ c = '-' := (natChars_mem_digit hcmem).2
      have hstep : parseIntChars (c :: rest)
          = (parseNatChars (c :: rest)).map (fun n => (n : Int)) := by
        simp [parseIntChars, hcne]
      rw [hstep, ← hE, parseNatChars_natChars]
      exact congrArg some (show ((i.natAbs : Nat) : Int) = i by omega)

lemma parseNatStr_natToStr (n : Nat) : parseNatStr (natToStr n) = some n :=
  parseNatChars_natChars n

lemma parseIntStr_intToStr (i : Int) : parseIntStr (intToStr i) = some i :=
  parseIntChars_intChars i

/-! ### ConfigStore (XenStore) model

The XenStore implementation is not part of the source tree (only its unit
test, src/test/testXenStore.cpp, is), so the store is modelled from the
specification: a hierarchical key/value database with typed read/write,
existence check, subtree removal, directory listing and path watches.
A path is modelled as its list of slash-separated segments. -/

/-- Modelled from the spec: a XenStore path, as its list of
slash-separated segments. -/
abbrev XsPath := List String

/-- Errors of the store interface: NotFound for a missing path,
MalformedValue for an unparseable stored value. -/
inductive XsError where
  | notFound
  | malformedValue
deriving DecidableEq

/-- Modelled from the spec: the store state, missing from the source tree.
Entries map a path to its string value (the most recent write shadows
older entries); watches is the list of registered watch paths. -/
structure XenStoreSt where
  entries : List (XsPath × String)
  watches : List XsPath
deriving DecidableEq

/-- The store holding no values and no watches. -/
def emptyXenStore : XenStoreSt := ⟨[], []⟩

/-- Value stored at a path: the most recently written entry for it. -/
def lookupVal : List (XsPath × String) → XsPath → Option String
  | [], _ => none
  | e :: es, p => if e.1 = p then some e.2 else lookupVal es p

/-- Modelled from the spec: writeString stores a value at a path,
overwriting any existing value (XenStore::writeString, implementation
missing from the source tree). -/
def writeString (st : XenStoreSt) (p : XsPath) (v : String) : XenStoreSt :=
  { st with entries := (p, v) :: st.entries }

/-- Modelled from the spec: writeInt stores the decimal representation of
a signed integer (XenStore::writeInt). -/
def writeInt (st : XenStoreSt) (p : XsPath) (i : Int) : XenStoreSt :=
  writeString st p (intToStr i)

/-- Modelled from the spec: writeUint stores the decimal representation of
an unsigned integer (XenStore::writeUint). -/
def writeUint (st : XenStoreSt) (p : XsPath) (n : Nat) : XenStoreSt :=
  writeString st p (natToStr n)

/-- Modelled from the spec: readString returns the value at a path and
fails with NotFound if the path has no value (XenStore::readString). -/
def readString (st : XenStoreSt) (p : XsPath) : Except XsError String :=
  match lookupVal st.entries p with
  | none => Except.error XsError.notFound
  | some v => Except.ok v

/-- Modelled from the spec: readInt parses the value at a path as a signed
integer; NotFound if the path has no value (XenStore::readInt). -/
def readInt (st : XenStoreSt) (p : XsPath) : Except XsError Int :=
  match readString st p with
  | Except.error e => Except.error e
  | Except.ok v =>
    match parseIntStr v with
    | none => Except.error XsError.malformedValue
    | some i => Except.ok i

/-- Modelled from the spec: readUint parses the value at a path as an
unsigned integer; NotFound if the path has no value (XenStore::readUint). -/
def readUint (st : XenStoreSt) (p : XsPath) : Except XsError Nat :=
  match readString st p with
  | Except.error e => Except.error e
  | Except.ok v =>
    match parseNatStr v with
    | none => Except.error XsError.malformedValue
    | some n => Except.ok n

/-- Modelled from the spec: checkIfExist reports whether a path holds a
value or is a directory node with descendants (XenStore::checkIfExist). -/
def checkIfExist (st : XenStoreSt) (p : XsPath) : Bool :=
  st.entries.any (fun e => p.isPrefixOf e.1)

/-- Modelled from the spec: removePath removes the value at a path and,
when the path is a directory node, its entire subtree; a no-op when the
path is absent (XenStore::removePath). -/
def removePath (st : XenStoreSt) (p : XsPath) : XenStoreSt :=
  { st with entries := st.entries.filter (fun e => !(p.isPrefixOf e.1)) }

/-- Name of the immediate child of p on the way to q, when q lies strictly
below p. -/
def childName (p q : XsPath) : Option String :=
  if p.isPrefixOf q then (q.drop p.length).head? else none

/-- Modelled from the spec: readDirectory lists the immediate child names
of a path, each once; empty for a non-existent or childless path, never an
error (XenStore::readDirectory). -/
def readDirectory (st : XenStoreSt) (p : XsPath) : List String :=
  (st.entries.filterMap (fun e => childName p e.1)).dedup

/-- Modelled from the spec: setWatch registers a watch path whose callback
is invoked whenever the value at the path or any descendant changes
(XenStore::setWatch). -/
def setWatch (st : XenStoreSt) (p : XsPath) : XenStoreSt :=
  { st with watches := p :: st.watches }

/-- Modelled from the spec: clearWatch unregisters a watch path; a no-op
when the watch does not exist (XenStore::clearWatch). -/
def clearWatch (st : XenStoreSt) (p : XsPath) : XenStoreSt :=
  { st with watches := st.watches.filter (fun w => w ≠ p) }

/-- Modelled from the spec: the watches fired by a change at path p are
exactly the registered watches at p or an ancestor of p (dispatch of the
watch thread, implementation missing from the source tree). -/
def firedWatches (st : XenStoreSt) (p : XsPath) : List XsPath :=
  st.watches.filter (fun w => w.isPrefixOf p)

/-- Modelled from the spec: a write together with the watch callbacks it
triggers; the second component lists the fired watch paths. -/
def writeWithWatches (st : XenStoreSt) (p : XsPath) (v : String) :
    XenStoreSt × List XsPath :=
  (writeString st p v, firedWatches st p)

/-- A store mutation, used to state properties over arbitrary operation
sequences. -/
inductive StoreOp where
  | wStr : XsPath → String → StoreOp
  | wInt : XsPath → Int → StoreOp
  | wUint : XsPath → Nat → StoreOp
  | remove : XsPath → StoreOp

/-- Path targeted by a store mutation. -/
def targetPath : StoreOp → XsPath
  | StoreOp.wStr p _ => p
  | StoreOp.wInt p _ => p
  | StoreOp.wUint p _ => p
  | StoreOp.remove p => p

/-- Apply one store mutation. -/
def applyStoreOp (st : XenStoreSt) : StoreOp → XenStoreSt
  | StoreOp.wStr p v => writeString st p v
  | StoreOp.wInt p i => writeInt st p i
  | StoreOp.wUint p n => writeUint st p n
  | StoreOp.remove p => removePath st p

/-- Apply a sequence of store mutations, oldest first. -/
def applyStoreOps (st : XenStoreSt) (ops : List StoreOp) : XenStoreSt :=
  ops.foldl applyStoreOp st

lemma lookupVal_filter {es : List (XsPath × String)} {f : XsPath × String → Bool}
    {p : XsPath} (h : lookupVal es p = none) : lookupVal (es.filter f) p = none := by
  induction es with
  | nil => simp [lookupVal]
  | cons e es ih =>
    unfold lookupVal at h
    by_cases he : e.1 = p
    · rw [if_pos he] at h; exact absurd h (by simp)
    · rw [if_neg he] at h
      rw [List.filter_cons]
      by_cases hf : f e
      · rw [if_pos hf]
        unfold lookupVal
        rw [if_neg he]
        exact ih h
      · rw [if_neg hf]
        exact ih h

lemma lookupVal_applyStoreOps {ops : List StoreOp} {p : XsPath}
    (h : ∀ op ∈ ops, targetPath op ≠ p) :
    ∀ {st : XenStoreSt}, lookupVal st.entries p = none →
      lookupVal (applyStoreOps st ops).entries p = none := by
  induction ops with
  | nil => intro st hst; exact hst
  | cons o os ih =>
    intro st hst
    have ho : targetPath o ≠ p := h o (List.mem_cons_self _ _)
    have hos : ∀ op ∈ os, targetPath op ≠ p :=
      fun op hop => h op (List.mem_cons_of_mem _ hop)
    show lookupVal (applyStoreOps (applyStoreOp st o) os).entries p = none
    apply ih hos
    cases o with
    | wStr q v =>
      have hq : q ≠ p := ho
      simpa [applyStoreOp, writeString, lookupVal, hq] using hst
    | wInt q i =>
      have hq : q ≠ p := ho
      simpa [applyStoreOp, writeInt, writeString, lookupVal, hq] using hst
    | wUint q n =>
      have hq : q ≠ p := ho
      simpa [applyStoreOp, writeUint, writeString, lookupVal, hq] using hst
    | remove q =>
      simpa [applyStoreOp, removePath] using lookupVal_filter hst

/-- C3: for every valid path and every value of the matching type, a write
followed by the matching read at the same path returns exactly the written
value, and a read of a path never targeted by any operation of a run from
the empty store fails with NotFound. -/
theorem xenstore_write_read_roundtrip (st : XenStoreSt) (p : XsPath) (s : String)
    (i : Int) (n : Nat) (ops : List StoreOp) (hops : ∀ op ∈ ops, targetPath op ≠ p) :
    readString (writeString st p s) p = Except.ok s ∧
    readInt (writeInt st p i) p = Except.ok i ∧
    readUint (writeUint st p n) p = Except.ok n ∧
    readString (applyStoreOps emptyXenStore ops) p = Except.error XsError.notFound ∧
    readInt (applyStoreOps emptyXenStore ops) p = Except.error XsError.notFound ∧
    readUint (applyStoreOps emptyXenStore ops) p = Except.error XsError.notFound := by
  have hnone : lookupVal (applyStoreOps emptyXenStore ops).entries p = none :=
    lookupVal_applyStoreOps hops (by simp [emptyXenStore, lookupVal])
  refine ⟨?_, ?_, ?_, ?_, ?_, ?_⟩
  · simp [readString, writeString, lookupVal]
  · simp [readInt, readString, writeInt, writeString, lookupVal, parseIntStr_intToStr]
  · simp [readUint, readString, writeUint, writeString, lookupVal, parseNatStr_natToStr]
  · simp [readString, hnone]
  · simp [readInt, readString, hnone]
  · simp [readUint, readString, hnone]

/-- Witness for C3 at concrete inputs. -/
theorem xenstore_write_read_roundtrip_witness :
    readString (writeString emptyXenStore ["v"] "abc") ["v"] = Except.ok "abc" ∧
    readInt (writeInt emptyXenStore ["v"] (-34567)) ["v"] = Except.ok (-34567) ∧
    readUint (writeUint emptyXenStore ["v"] 23567) ["v"] = Except.ok 23567 ∧
    readString (applyStoreOps emptyXenStore [StoreOp.wStr ["w"] "x"]) ["v"]
      = Except.error XsError.notFound :=
  have h := xenstore_write_read_roundtrip emptyXenStore ["v"] "abc" (-34567) 23567
    [StoreOp.wStr ["w"] "x"] (by decide)
  ⟨h.1, h.2.1, h.2.2.1, h.2.2.2.1⟩

/-- C5: after removePath, checkIfExist on the same path is false, and
removePath on a path that does not exist leaves the store unchanged (and
never raises: it is a total function). -/
theorem xenstore_remove_then_not_exist (st : XenStoreSt) (p : XsPath) :
    checkIfExist (removePath st p) p = false ∧
    (checkIfExist st p = false → removePath st p = st) := by
  constructor
  · rw [Bool.eq_false_iff]
    intro hcon
    rw [checkIfExist, List.any_eq_true] at hcon
    obtain ⟨e, he, hpe⟩ := hcon
    rw [removePath] at he
    simp only [List.mem_filter] at he
    rw [hpe] at he
    simp at he
  · intro h
    rw [checkIfExist] at h
    have hall : ∀ e ∈ st.entries, (!(p.isPrefixOf e.1)) = true := by
      intro e he
      simp only [Bool.not_eq_true']
      by_contra hcon
      rw [Bool.not_eq_false] at hcon
      have : st.entries.any (fun e => p.isPrefixOf e.1) = true :=
        List.any_eq_true.mpr ⟨e, he, hcon⟩
      rw [this] at h
      exact absurd h (by simp)
    cases st with
    | mk es ws =>
      simp only [removePath]
      congr 1
      exact List.filter_eq_self.mpr hall

/-- Witness for C5 at concrete inputs. -/
theorem xenstore_remove_then_not_exist_witness :
    checkIfExist (removePath ⟨[(["a"], "x")], []⟩ ["b"]) ["b"] = false ∧
    removePath (⟨[(["a"], "x")], []⟩ : XenStoreSt) ["b"] = ⟨[(["a"], "x")], []⟩ :=
  have h := xenstore_remove_then_not_exist ⟨[(["a"], "x")], []⟩ ["b"]
  ⟨h.1, h.2 (by decide)⟩

lemma childName_eq_some {p q : XsPath} {c : String} :
    childName p q = some c ↔ ∃ rest, q = p ++ c :: rest := by
  unfold childName
  by_cases h : p.isPrefixOf q
  · rw [if_pos h]
    obtain ⟨t, rfl⟩ := List.isPrefixOf_iff_prefix.mp h
    rw [List.drop_left]
    constructor
    · intro hh
      cases t with
      | nil => simp at hh
      | cons a r =>
        simp only [List.head?_cons, Option.some_inj] at hh
        exact ⟨r, by rw [hh]⟩
    · rintro ⟨rest, hrest⟩
      have ht : t = c :: rest := List.append_cancel_left hrest
      rw [ht]
      rfl
  · rw [if_neg h]
    constructor
    · intro hh; exact absurd hh (by simp)
    · rintro ⟨rest, rfl⟩
      exact absurd (List.isPrefixOf_iff_prefix.mpr ⟨c :: rest, rfl⟩) h

/-- C6: readDirectory returns exactly the set of immediate child names of
a path (a name is listed iff some entry lies strictly below the path
through it, each name once, children of subdirectories not listed as
such), and returns the empty sequence for a non-existent or childless
path; it is a total function, never an error. -/
theorem xenstore_readDirectory_children (st : XenStoreSt) (p : XsPath) :
    (∀ c, c ∈ readDirectory st p ↔ ∃ e ∈ st.entries, ∃ rest, e.1 = p ++ c :: rest) ∧
    (readDirectory st p).Nodup ∧
    ((∀ e ∈ st.entries, ∀ c rest, e.1 ≠ p ++ c :: rest) → readDirectory st p = []) := by
  have hmem : ∀ c, c ∈ readDirectory st p ↔
      ∃ e ∈ st.entries, ∃ rest, e.1 = p ++ c :: rest := by
    intro c
    rw [readDirectory, List.mem_dedup, List.mem_filterMap]
    constructor
    · rintro ⟨e, he, hc⟩
      exact ⟨e, he, childName_eq_some.mp hc⟩
    · rintro ⟨e, he, rest, hrest⟩
      exact ⟨e, he, childName_eq_some.mpr ⟨rest, hrest⟩⟩
  refine ⟨hmem, List.nodup_dedup _, ?_⟩
  intro h
  rw [List.eq_nil_iff_forall_not_mem]
  intro c hc
  obtain ⟨e, he, rest, hrest⟩ := (hmem c).mp hc
  exact h e he c rest hrest

/-- Witness for C6 at concrete inputs. -/
theorem xenstore_readDirectory_children_witness :
    readDirectory emptyXenStore ["z"] = [] ∧
    (readDirectory ⟨[(["d", "c0"], "v")], []⟩ ["d"]).Nodup :=
  ⟨(xenstore_readDirectory_children emptyXenStore ["z"]).2.2
      (by intro e he; exact absurd he (List.not_mem_nil e)),
    (xenstore_readDirectory_children ⟨[(["d", "c0"], "v")], []⟩ ["d"]).2.1⟩

/-- C7: for a registered watch, a write at the watched path or below fires
the watch in the dispatch produced by that change (the bounded-delay
delivery of the dispatch thread, modelled synchronously), and a change to
an unrelated path never fires it. -/
theorem xenstore_watch_fires (st : XenStoreSt) (p w : XsPath) (v : String)
    (hw : w ∈ st.watches) :
    (w <+: p → w ∈ (writeWithWatches st p v).2) ∧
    (¬ w <+: p → w ∉ (writeWithWatches st p v).2) := by
  constructor
  · intro hpre
    rw [writeWithWatches, firedWatches]
    exact List.mem_filter.mpr ⟨hw, List.isPrefixOf_iff_prefix.mpr hpre⟩
  · intro hpre hcon
    rw [writeWithWatches, firedWatches] at hcon
    exact hpre (List.isPrefixOf_iff_prefix.mp (List.mem_filter.mp hcon).2)

/-- Witness for C7 at concrete inputs. -/
theorem xenstore_watch_fires_witness :
    ["a"] ∈ (writeWithWatches ⟨[], [["a"]]⟩ ["a", "b"] "x").2 ∧
    ["q"] ∉ (writeWithWatches ⟨[], [["a"], ["q"]]⟩ ["a", "b"] "x").2 :=
  ⟨(xenstore_watch_fires ⟨[], [["a"]]⟩ ["a", "b"] ["a"] "x"
      (List.mem_cons_self _ _)).1 ⟨["b"], rfl⟩,
    (xenstore_watch_fires ⟨[], [["a"], ["q"]]⟩ ["a", "b"] ["q"] "x"
      (by simp)).2 (by intro hcon; obtain ⟨t, ht⟩ := hcon; simp at ht)⟩

/-! ### XenEvtchn (EventChannel) model

The header src/include/xen/be/XenEvtchn.hpp declares the channel with its
listening thread and atomic termination flag; the implementation is not in
the source tree, so its behaviour is modelled from the specification as a
labelled transition system over interleavings of the channel thread and a
caller of stop()/notify(). -/

/-- Phase of the channel thread: blocked in waitEvent, running the user
callback, or exited. -/
inductive EvPhase where
  | waiting
  | inCallback
  | exited
deriving DecidableEq

/-- Modelled from the spec: the observable state of one XenEvtchn
(XenEvtchn::eventThread / stop / notify, implementation missing from the
source tree).  pendingLocal is a delivered-but-unconsumed notification,
peerPending a signal sent to the peer endpoint by notify(). -/
structure EvtchnSt where
  phase : EvPhase
  terminate : Bool
  stopReturned : Bool
  pendingLocal : Bool
  peerPending : Bool
deriving DecidableEq

/-- Channel state right after start(): thread blocked waiting, no flags. -/
def evtchnInit : EvtchnSt := ⟨EvPhase.waiting, false, false, false, false⟩

/-- One atomic step of the channel system: a notification arrival, the
thread picking a notification up (invoking the callback), the callback
finishing, stop() setting the termination flag (with its waking
self-notification), the thread observing the flag and exiting, and stop()
returning after joining the exited thread. -/
inductive EvLabel where
  | notifArrive
  | invokeCb
  | finishCb
  | stopSet
  | observeExit
  | stopReturn
deriving DecidableEq

/-- Modelled from the spec: the guarded transition function of the channel
system; none when the step is not enabled in the given state. -/
def evStep (s : EvtchnSt) : EvLabel → Option EvtchnSt
  | EvLabel.notifArrive => some { s with pendingLocal := true }
  | EvLabel.invokeCb =>
    if s.phase = EvPhase.waiting ∧ s.terminate = false ∧ s.pendingLocal = true then
      some { s with phase := EvPhase.inCallback, pendingLocal := false }
    else none
  | EvLabel.finishCb =>
    if s.phase = EvPhase.inCallback then some { s with phase := EvPhase.waiting }
    else none
  | EvLabel.stopSet => some { s with terminate := true, pendingLocal := true }
  | EvLabel.observeExit =>
    if s.phase = EvPhase.waiting ∧ s.terminate = true then
      some { s with phase := EvPhase.exited }
    else none
  | EvLabel.stopReturn =>
    if s.phase = EvPhase.exited then some { s with stopReturned := true }
    else none

/-- Run a sequence of labels from a state; none when some step is not
enabled. -/
def evRun (s : EvtchnSt) : List EvLabel → Option EvtchnSt
  | [] => some s
  | l :: ls =>
    match evStep s l with
    | none => none
    | some t => evRun t ls

/-- Modelled from the spec: notify() signals the peer endpoint
(XenEvtchn::notify, implementation missing from the source tree). -/
def notify (s : EvtchnSt) : EvtchnSt := { s with peerPending := true }

lemma evStep_exited {s t : EvtchnSt} {l : EvLabel} (h : evStep s l = some t)
    (hs : s.phase = EvPhase.exited) : t.phase = EvPhase.exited := by
  cases l <;> rw [evStep] at h <;> (try split at h) <;>
    (try (injection h with h; subst h)) <;> simp_all

lemma evStep_stopReturned_inv {s t : EvtchnSt} {l : EvLabel} (h : evStep s l = some t)
    (hs : s.stopReturned = true → s.phase = EvPhase.exited) :
    t.stopReturned = true → t.phase = EvPhase.exited := by
  intro ht
  cases l <;> rw [evStep] at h <;> (try split at h) <;>
    (try (injection h with h; subst h)) <;> simp_all

lemma evRun_stopReturned_inv {s t : EvtchnSt} {ls : List EvLabel}
    (h : evRun s ls = some t) (hs : s.stopReturned = true → s.phase = EvPhase.exited) :
    t.stopReturned = true → t.phase = EvPhase.exited := by
  induction ls generalizing s with
  | nil => rw [evRun] at h; injection h with h; rw [← h]; exact hs
  | cons l ls ih =>
    rw [evRun] at h
    cases hstep : evStep s l with
    | none => rw [hstep] at h; exact absurd h (by simp)
    | some u =>
      rw [hstep] at h
      exact ih h (evStep_stopReturned_inv hstep hs)

lemma evRun_no_invoke_from_exited {s t : EvtchnSt} {ls : List EvLabel}
    (h : evRun s ls = some t) (hs : s.phase = EvPhase.exited) :
    EvLabel.invokeCb ∉ ls := by
  induction ls generalizing s with
  | nil => exact List.not_mem_nil _
  | cons l ls ih =>
    rw [evRun] at h
    cases hstep : evStep s l with
    | none => rw [hstep] at h; exact absurd h (by simp)
    | some u =>
      rw [hstep] at h
      intro hmem
      rcases List.mem_cons.mp hmem with hl | hl
      · subst hl
        rw [evStep] at hstep
        split at hstep <;> simp_all
      · exact ih h (evStep_exited hstep hs) hl

/-- C2: in every interleaving of the channel system, once stop() has
returned no further invocation of the notification callback occurs, and at
the moment stop() returns the thread has already exited (so a callback in
flight when stop() was called has completed before stop() returned). -/
theorem evtchn_no_callback_after_stop (t1 t2 : List EvLabel) (s1 s2 : EvtchnSt)
    (h1 : evRun evtchnInit t1 = some s1) (hstop : s1.stopReturned = true)
    (h2 : evRun s1 t2 = some s2) :
    EvLabel.invokeCb ∉ t2 ∧ s1.phase = EvPhase.exited := by
  have hexit : s1.phase = EvPhase.exited :=
    evRun_stopReturned_inv h1 (by intro hcon; exact absurd hcon (by simp [evtchnInit])) hstop
  exact ⟨evRun_no_invoke_from_exited h2 hexit, hexit⟩

/-- Witness for C2: a run that delivers one notification, runs the
callback, stops, and then sees one more notification arrival after stop()
returned. -/
theorem evtchn_no_callback_after_stop_witness :
    EvLabel.invokeCb ∉ [EvLabel.notifArrive] ∧
    (⟨EvPhase.exited, true, true, true, false⟩ : EvtchnSt).phase = EvPhase.exited :=
  evtchn_no_callback_after_stop
    [EvLabel.notifArrive, EvLabel.invokeCb, EvLabel.finishCb, EvLabel.stopSet,
      EvLabel.observeExit, EvLabel.stopReturn]
    [EvLabel.notifArrive]
    ⟨EvPhase.exited, true, true, true, false⟩
    ⟨EvPhase.exited, true, true, true, false⟩
    (by decide) (by decide) (by decide)

/-- C8: notify() signals the peer endpoint and has no visible effect on
the local notification callback: every local field of the channel state is
unchanged, and every local transition is enabled and acts on the notified
state exactly as on the original one. -/
theorem evtchn_notify_frame (s : EvtchnSt) (l : EvLabel) :
    (notify s).phase = s.phase ∧
    (notify s).pendingLocal = s.pendingLocal ∧
    (notify s).terminate = s.terminate ∧
    (notify s).stopReturned = s.stopReturned ∧
    (notify s).peerPending = true ∧
    evStep (notify s) l = Option.map notify (evStep s l) := by
  refine ⟨rfl, rfl, rfl, rfl, rfl, ?_⟩
  cases s with
  | mk ph te sr pl pp =>
    cases l with
    | notifArrive => rfl
    | invokeCb =>
      rw [evStep, evStep, notify]
      split
      · rfl
      · rfl
    | finishCb =>
      rw [evStep, evStep, notify]
      split
      · rfl
      · rfl
    | stopSet => rfl
    | observeExit =>
      rw [evStep, evStep, notify]
      split
      · rfl
      · rfl
    | stopReturn =>
      rw [evStep, evStep, notify]
      split
      · rfl
      · rfl

/-! ### BackendBase (BackendEngine) model

The header src/unnamed/part_000 declares BackendBase with its frontend
handler map keyed by (domain id, device id), the discovery thread, the
500 ms poll constant and the getters; the implementation (run,
createFrontendHandler, checkTerminatedFrontends, start, stop) is not in
the source tree and is modelled from the specification. -/

/-- Frontend key: (domain identifier, device identifier), as declared by
BackendBase::FrontendKey. -/
abbrev FrontendKey := Nat × Nat

/-- Frontend poll interval in msec, from the header
(BackendBase::cPollFrontendIntervalMs). -/
def cPollFrontendIntervalMs : Nat := 500

/-- Modelled from the spec: the observable BackendBase state, missing from
the source tree; handlers holds the keys of the tracked FrontendHandler
map, running whether the discovery thread has been spawned. -/
structure BackendSt where
  name : String
  deviceName : String
  domId : Nat
  handlers : List FrontendKey
  running : Bool
deriving DecidableEq

/-- State produced by the BackendBase constructor. -/
def mkBackend (name deviceName : String) (domId : Nat) : BackendSt :=
  ⟨name, deviceName, domId, [], false⟩

/-- Getter from the header: BackendBase::getDeviceName returns
mDeviceName. -/
def getDeviceName (s : BackendSt) : String := s.deviceName

/-- Getter from the header: BackendBase::getDomId returns mDomId. -/
def getDomId (s : BackendSt) : Nat := s.domId

/-- Errors of the engine lifecycle contract. -/
inductive BackendError where
  | alreadyRunning
deriving DecidableEq

/-- Modelled from the spec: start() spawns the discovery thread and fails
with AlreadyRunning when called twice without an intervening stop()
(BackendBase::start, implementation missing from the source tree). -/
def startBackend (s : BackendSt) : Except BackendError BackendSt :=
  if s.running then Except.error BackendError.alreadyRunning
  else Except.ok { s with running := true }

/-- Modelled from the spec: stop() signals the discovery thread to exit
and joins it (BackendBase::stop). -/
def stopBackend (s : BackendSt) : BackendSt := { s with running := false }

/-- Modelled from the spec: waitForFinish() blocks until the discovery
thread exits without requesting exit; it does not change the state
(BackendBase::waitForFinish). -/
def waitForFinish (s : BackendSt) : BackendSt := s

/-- Modelled from the spec: addFrontendHandler registers a handler under
its frontend key in the tracked map (BackendBase::addFrontendHandler). -/
def addFrontendHandler (s : BackendSt) (k : FrontendKey) : BackendSt :=
  if k ∈ s.handlers then s else { s with handlers := k :: s.handlers }

/-- Oracle input of one discovery iteration: what getNewFrontend yields,
and which tracked handlers report isTerminated. -/
structure IterInput where
  discovery : Option FrontendKey
  terminated : FrontendKey → Bool

/-- Observable events of the discovery loop: a FrontendHandler created
(onNewFrontend invoked) for a key, or a terminated handler removed. -/
inductive BEvent where
  | created : FrontendKey → BEvent
  | removed : FrontendKey → BEvent
deriving DecidableEq

/-- Modelled from the spec: step (a) of the discovery loop, missing from
the source tree: call getNewFrontend and, when it yields a key not already
tracked, invoke onNewFrontend for it, which registers the new handler
(BackendBase::run / createFrontendHandler). -/
def discoverPhase (s : BackendSt) (d : Option FrontendKey) :
    BackendSt × List BEvent :=
  match d with
  | none => (s, [])
  | some k =>
    if k ∈ s.handlers then (s, [])
    else (addFrontendHandler s k, [BEvent.created k])

/-- Modelled from the spec: step (b) of the discovery loop, missing from
the source tree: remove every tracked handler whose termination flag is
set (BackendBase::checkTerminatedFrontends). -/
def reapPhase (s : BackendSt) (term : FrontendKey → Bool) :
    BackendSt × List BEvent :=
  ({ s with handlers := s.handlers.filter (fun k => !(term k)) },
    (s.handlers.filter (fun k => term k)).map BEvent.removed)

/-- Modelled from the spec: one iteration of the discovery loop, step (a)
followed by step (b) (BackendBase::run). -/
def discoveryStep (s : BackendSt) (inp : IterInput) : BackendSt × List BEvent :=
  ((reapPhase (discoverPhase s inp.discovery).1 inp.terminated).1,
    (discoverPhase s inp.discovery).2
      ++ (reapPhase (discoverPhase s inp.discovery).1 inp.terminated).2)

/-- A sequence of discovery-loop iterations and the event trace it emits. -/
def discoveryRun (s : BackendSt) : List IterInput → BackendSt × List BEvent
  | [] => (s, [])
  | i :: is =>
    ((discoveryRun (discoveryStep s i).1 is).1,
      (discoveryStep s i).2 ++ (discoveryRun (discoveryStep s i).1 is).2)

lemma count_map_removed (l : List FrontendKey) (k : FrontendKey) :
    (l.map BEvent.removed).count (BEvent.removed k) = l.count k := by
  induction l with
  | nil => rfl
  | cons a l ih =>
    simp only [List.map_cons, List.count_cons, ih, beq_iff_eq, BEvent.removed.injEq]

lemma prefix_append_cases {α : Type} {q l1 l2 : List α} (h : q <+: l1 ++ l2) :
    q <+: l1 ∨ ∃ r, q = l1 ++ r ∧ r <+: l2 := by
  obtain ⟨t, ht⟩ := h
  rcases List.append_eq_append_iff.mp ht with ⟨a, ha1, _⟩ | ⟨c, hc1, hc2⟩
  · exact Or.inl ⟨a, ha1.symm⟩
  · exact Or.inr ⟨c, hc1, ⟨t, hc2.symm⟩⟩

lemma discoverPhase_nodup {s : BackendSt} {d : Option FrontendKey}
    (h : s.handlers.Nodup) : (discoverPhase s d).1.handlers.Nodup := by
  cases d with
  | none => exact h
  | some k0 =>
    by_cases hmem : k0 ∈ s.handlers
    · simp only [discoverPhase, if_pos hmem]; exact h
    · simp only [discoverPhase, if_neg hmem, addFrontendHandler]
      exact List.nodup_cons.mpr ⟨hmem, h⟩

lemma discoverPhase_spec (s : BackendSt) (d : Option FrontendKey) (k : FrontendKey) :
    (discoverPhase s d).1.handlers.count k
        = s.handlers.count k + (discoverPhase s d).2.count (BEvent.created k) ∧
    (discoverPhase s d).2.count (BEvent.removed k) = 0 ∧
    (discoverPhase s d).2.count (BEvent.created k) ≤ 1 ∧
    ((discoverPhase s d).2.count (BEvent.created k) = 1 → k ∉ s.handlers) := by
  cases d with
  | none => simp [discoverPhase]
  | some k0 =>
    by_cases hmem : k0 ∈ s.handlers
    · simp [discoverPhase, hmem]
    · simp only [discoverPhase, if_neg hmem, addFrontendHandler]
      by_cases hk : k0 = k
      · subst hk
        simp only [List.count_cons, List.count_singleton, beq_iff_eq,
          BEvent.created.injEq, BEvent.removed.injEq, if_pos rfl]
        refine ⟨rfl, by simp, by simp, fun _ => hmem⟩
      · simp only [List.count_cons, List.count_singleton, beq_iff_eq,
          BEvent.created.injEq, BEvent.removed.injEq, if_neg hk]
        refine ⟨by simp, by simp [hk], by simp [hk], ?_⟩
        simp [hk]

lemma count_filter_of_pos {α : Type} [BEq α] [LawfulBEq α] (l : List α)
    (p : α → Bool) (a : α) (h : p a = true) : (l.filter p).count a = l.count a := by
  induction l with
  | nil => rfl
  | cons b l ih =>
    rw [List.filter_cons]
    by_cases hpb : p b
    · rw [if_pos hpb, List.count_cons, List.count_cons, ih]
    · rw [if_neg hpb, ih, List.count_cons]
      have hba : (b == a) = false := by
        rw [beq_eq_false_iff_ne]
        intro hcon
        rw [hcon, h] at hpb
        exact hpb rfl
      rw [hba]
      simp

lemma nodup_count_le_one {α : Type} [BEq α] [LawfulBEq α] {l : List α}
    (h : l.Nodup) (a : α) : l.count a ≤ 1 := by
  induction l with
  | nil => simp
  | cons b l ih =>
    rw [List.count_cons]
    rcases List.nodup_cons.mp h with ⟨hb, hl⟩
    split
    · rename_i hba
      have hba2 : b = a := eq_of_beq hba
      subst hba2
      simp [List.count_eq_zero_of_not_mem hb]
    · have hle := ih hl
      omega

lemma reapPhase_spec (s : BackendSt) (term : FrontendKey → Bool) (k : FrontendKey) :
    s.handlers.count k
        = (reapPhase s term).1.handlers.count k
          + (reapPhase s term).2.count (BEvent.removed k) ∧
    (reapPhase s term).2.count (BEvent.created k) = 0 := by
  constructor
  · simp only [reapPhase]
    rw [count_map_removed]
    by_cases ht : term k
    · have hz : (s.handlers.filter (fun x => !(term x))).count k = 0 := by
        apply List.count_eq_zero_of_not_mem
        intro hcon
        have := (List.mem_filter.mp hcon).2
        rw [ht] at this
        exact absurd this (by simp)
      rw [hz, count_filter_of_pos s.handlers (fun x => term x) k ht]
      omega
    · have hf : (fun x => !(term x)) k = true := by simp [ht]
      have hz : (s.handlers.filter (fun x => term x)).count k = 0 := by
        apply List.count_eq_zero_of_not_mem
        intro hcon
        exact absurd ((List.mem_filter.mp hcon).2) (by simp [ht])
      rw [hz, count_filter_of_pos s.handlers (fun x => !(term x)) k hf]
      omega
  · apply List.count_eq_zero_of_not_mem
    intro hcon
    obtain ⟨x, _, he⟩ := List.mem_map.mp hcon
    exact absurd he (by simp)

/-- Invariant of the discovery loop tying the tracked handler set to the
emitted event trace: the handler keys are distinct; for every key, the
creations in the trace exceed the removals by exactly one when the key is
tracked and zero otherwise; and every trace prefix has at most one more
creation than removals of a key. -/
def BInv (s : BackendSt) (evs : List BEvent) : Prop :=
  s.handlers.Nodup ∧
  (∀ k, evs.count (BEvent.created k) = evs.count (BEvent.removed k) + s.handlers.count k) ∧
  (∀ k q, q <+: evs → q.count (BEvent.created k) ≤ q.count (BEvent.removed k) + 1)

lemma discoveryStep_inv {s : BackendSt} {evs : List BEvent} {inp : IterInput}
    (h : BInv s evs) : BInv (discoveryStep s inp).1 (evs ++ (discoveryStep s inp).2) := by
  obtain ⟨hnd, hbal, hpfx⟩ := h
  refine ⟨?_, ?_, ?_⟩
  · exact List.Nodup.filter _ (discoverPhase_nodup hnd)
  · intro k
    obtain ⟨hd1, hd2, _, _⟩ := discoverPhase_spec s inp.discovery k
    obtain ⟨hr1, hr2⟩ :=
      reapPhase_spec (discoverPhase s inp.discovery).1 inp.terminated k
    have hb := hbal k
    simp only [discoveryStep, List.count_append]
    omega
  · intro k q hq
    rcases prefix_append_cases hq with hq1 | ⟨r, rfl, hr⟩
    · exact hpfx k q hq1
    · obtain ⟨hd1, hd2, hd3, hd4⟩ := discoverPhase_spec s inp.discovery k
      obtain ⟨hr1, hr2⟩ :=
        reapPhase_spec (discoverPhase s inp.discovery).1 inp.terminated k
      have hb := hbal k
      have hcnt1 : s.handlers.count k ≤ 1 := nodup_count_le_one hnd k
      have hrc : r.count (BEvent.created k)
          ≤ (discoveryStep s inp).2.count (BEvent.created k) :=
        List.IsPrefix.count_le hr _
      have hstepc : (discoveryStep s inp).2.count (BEvent.created k)
          = (discoverPhase s inp.discovery).2.count (BEvent.created k) := by
        simp only [discoveryStep, List.count_append]
        omega
      simp only [List.count_append]
      by_cases hc : (discoverPhase s inp.discovery).2.count (BEvent.created k) = 0
      · omega
      · have h1 : (discoverPhase s inp.discovery).2.count (BEvent.created k) = 1 := by
          omega
        have hnotmem : k ∉ s.handlers := hd4 h1
        have hzero : s.handlers.count k = 0 := List.count_eq_zero_of_not_mem hnotmem
        omega

lemma discoveryRun_inv {s : BackendSt} {evs : List BEvent} (ins : List IterInput)
    (h : BInv s evs) :
    BInv (discoveryRun s ins).1 (evs ++ (discoveryRun s ins).2) := by
  induction ins generalizing s evs with
  | nil => simpa [discoveryRun] using h
  | cons i is ih =>
    have hstep : BInv (discoveryStep s i).1 (evs ++ (discoveryStep s i).2) :=
      discoveryStep_inv h
    have := ih hstep
    simpa [discoveryRun, List.append_assoc] using this

/-- C1: in every reachable state of the discovery loop the tracked handler
map holds at most one FrontendHandler per frontend key (the key list is
duplicate-free), and in every prefix of the emitted event trace a handler
is created at most once per key between successive terminations of that
key: the creations of a key never exceed its removals by more than one. -/
theorem backend_handler_unique (n d : String) (i : Nat) (ins : List IterInput)
    (k : FrontendKey) (p : List BEvent)
    (hp : p <+: (discoveryRun (mkBackend n d i) ins).2) :
    ((discoveryRun (mkBackend n d i) ins).1.handlers).Nodup ∧
    p.count (BEvent.created k) ≤ p.count (BEvent.removed k) + 1 := by
  have hinit : BInv (mkBackend n d i) [] := by
    refine ⟨by simp [mkBackend], by simp [mkBackend], ?_⟩
    intro k0 q hq
    rw [List.prefix_nil.mp hq]
    simp
  have hrun := discoveryRun_inv ins hinit
  obtain ⟨hnd, _, hpfx⟩ := hrun
  refine ⟨hnd, ?_⟩
  have := hpfx k p (by simpa using hp)
  exact this

/-- Witness for C1: two iterations discovering the same key, the handler
terminating in between. -/
theorem backend_handler_unique_witness :
    ((discoveryRun (mkBackend "be" "dev" 1)
        [⟨some (3, 7), fun _ => false⟩, ⟨some (3, 7), fun _ => true⟩,
          ⟨some (3, 7), fun _ => false⟩]).1.handlers).Nodup ∧
    [BEvent.created (3, 7), BEvent.removed (3, 7), BEvent.created (3, 7)].count
        (BEvent.created (3, 7))
      ≤ [BEvent.created (3, 7), BEvent.removed (3, 7),
          BEvent.created (3, 7)].count (BEvent.removed (3, 7)) + 1 :=
  backend_handler_unique "be" "dev" 1
    [⟨some (3, 7), fun _ => false⟩, ⟨some (3, 7), fun _ => true⟩,
      ⟨some (3, 7), fun _ => false⟩]
    (3, 7)
    [BEvent.created (3, 7), BEvent.removed (3, 7), BEvent.created (3, 7)]
    ⟨[], by decide⟩

/-- C4: start() spawns the discovery thread (the engine is running
afterwards), and calling start() twice without an intervening stop() fails
with AlreadyRunning, while start() after stop() succeeds again. -/
theorem backend_start_already_running (s : BackendSt) (h : s.running = false) :
    ∃ s1, startBackend s = Except.ok s1 ∧ s1.running = true ∧
      startBackend s1 = Except.error BackendError.alreadyRunning ∧
      ∃ s2, startBackend (stopBackend s1) = Except.ok s2 ∧ s2.running = true := by
  refine ⟨{ s with running := true }, ?_, rfl, ?_, ?_⟩
  · rw [startBackend, h]
    simp
  · rw [startBackend]
    simp
  · refine ⟨{ stopBackend { s with running := true } with running := true }, ?_, rfl⟩
    rw [startBackend, stopBackend]
    simp

/-- Witness for C4 on a freshly constructed backend. -/
theorem backend_start_already_running_witness :
    ∃ s1, startBackend (mkBackend "be" "dev" 1) = Except.ok s1 ∧
      s1.running = true ∧
      startBackend s1 = Except.error BackendError.alreadyRunning ∧
      ∃ s2, startBackend (stopBackend s1) = Except.ok s2 ∧ s2.running = true :=
  backend_start_already_running (mkBackend "be" "dev" 1) rfl

/-- C9: the discovery loop polls at the fixed default interval of 500 ms
(BackendBase::cPollFrontendIntervalMs, from the header), and in each
iteration it consumes the result of getNewFrontend: a yielded key not
already tracked triggers onNewFrontend exactly once for that key, a
yielded key already tracked or no key triggers no creation. -/
theorem backend_discovery_iteration (s : BackendSt) (inp : IterInput)
    (k : FrontendKey) :
    cPollFrontendIntervalMs = 500 ∧
    (inp.discovery = some k → k ∉ s.handlers →
      (discoveryStep s inp).2.count (BEvent.created k) = 1) ∧
    (inp.discovery = some k → k ∈ s.handlers →
      (discoveryStep s inp).2.count (BEvent.created k) = 0) ∧
    (inp.discovery = none →
      (discoveryStep s inp).2.count (BEvent.created k) = 0) := by
  refine ⟨rfl, ?_, ?_, ?_⟩
  · intro hd hmem
    obtain ⟨_, hr2⟩ := reapPhase_spec (discoverPhase s inp.discovery).1 inp.terminated k
    have hd2 : (discoverPhase s inp.discovery).2 = [BEvent.created k] := by
      rw [hd]
      simp [discoverPhase, hmem]
    simp only [discoveryStep, List.count_append, hr2, hd2]
    simp [List.count_singleton]
  · intro hd hmem
    obtain ⟨_, hr2⟩ := reapPhase_spec (discoverPhase s inp.discovery).1 inp.terminated k
    have hd2 : (discoverPhase s inp.discovery).2 = [] := by
      rw [hd]
      simp [discoverPhase, hmem]
    simp only [discoveryStep, List.count_append, hr2, hd2]
    simp
  · intro hd
    obtain ⟨_, hr2⟩ := reapPhase_spec (discoverPhase s inp.discovery).1 inp.terminated k
    have hd2 : (discoverPhase s inp.discovery).2 = [] := by
      rw [hd]
      simp [discoverPhase]
    simp only [discoveryStep, List.count_append, hr2, hd2]
    simp

/-- Witness for C9 at a concrete iteration. -/
theorem backend_discovery_iteration_witness :
    cPollFrontendIntervalMs = 500 ∧
    (discoveryStep (mkBackend "be" "dev" 1)
        ⟨some (3, 7), fun _ => false⟩).2.count (BEvent.created (3, 7)) = 1 :=
  have h := backend_discovery_iteration (mkBackend "be" "dev" 1)
    ⟨some (3, 7), fun _ => false⟩ (3, 7)
  ⟨h.1, h.2.1 rfl (by simp [mkBackend])⟩

/-- An operation of the public BackendBase interface, for stating frame
properties over arbitrary call sequences. -/
inductive BackendOp where
  | opStart
  | opStop
  | opWait
  | opAdd : FrontendKey → BackendOp

/-- Apply one interface operation to the engine state; a failing start()
leaves the state unchanged. -/
def applyBackendOp (s : BackendSt) : BackendOp → BackendSt
  | BackendOp.opStart =>
    match startBackend s with
    | Except.ok t => t
    | Except.error _ => s
  | BackendOp.opStop => stopBackend s
  | BackendOp.opWait => waitForFinish s
  | BackendOp.opAdd k => addFrontendHandler s k

/-- Apply a sequence of interface operations, oldest first. -/
def applyBackendOps (s : BackendSt) (ops : List BackendOp) : BackendSt :=
  ops.foldl applyBackendOp s

lemma applyBackendOp_preserves (s : BackendSt) (op : BackendOp) :
    (applyBackendOp s op).domId = s.domId ∧
    (applyBackendOp s op).deviceName = s.deviceName := by
  cases op with
  | opStart =>
    by_cases h : s.running
    · simp [applyBackendOp, startBackend, h]
    · simp [applyBackendOp, startBackend, h]
  | opStop => exact ⟨rfl, rfl⟩
  | opWait => exact ⟨rfl, rfl⟩
  | opAdd k =>
    by_cases h : k ∈ s.handlers
    · simp [applyBackendOp, addFrontendHandler, h]
    · simp [applyBackendOp, addFrontendHandler, h]

lemma applyBackendOps_preserves (ops : List BackendOp) :
    ∀ s : BackendSt, (applyBackendOps s ops).domId = s.domId ∧
      (applyBackendOps s ops).deviceName = s.deviceName := by
  induction ops with
  | nil => exact fun s => ⟨rfl, rfl⟩
  | cons op ops ih =>
    intro s
    have h1 := applyBackendOp_preserves s op
    have h2 := ih (applyBackendOp s op)
    exact ⟨h2.1.trans h1.1, h2.2.trans h1.2⟩

/-- C10: getDomId and getDeviceName return exactly the domain id and
device name supplied to the constructor, for the whole lifetime of the
object: no sequence of start/stop/waitForFinish/addFrontendHandler calls
changes them. -/
theorem backend_getters_immutable (n d : String) (i : Nat)
    (ops : List BackendOp) :
    getDomId (applyBackendOps (mkBackend n d i) ops) = i ∧
    getDeviceName (applyBackendOps (mkBackend n d i) ops) = d :=
  ⟨(applyBackendOps_preserves ops (mkBackend n d i)).1,
    (applyBackendOps_preserves ops (mkBackend n d i)).2⟩
